import Mathlib

/-!
Verification of `hindi_tokenizer.py` (download / sample / normalize pipeline).

The Python source is shallowly embedded:
* strings are `List Char` (wrapped into `String` where convenient);
* the file system state of the downloader is an `Option (List Nat)`
  (`none` = destination file absent, `some bs` = file holding bytes `bs`);
* the HTTP transport is an abstract function from the optional `Range`
  header start offset to either a response (a list of body chunks, as
  yielded by `iter_content(chunk_size=8192)`, plus an optional error
  raised while iterating the body) or a request-time error;
* a raised Python exception is an explicit `error` / `none` value.
-/

/-- The set of characters matched by Python's regex `\s` (and by
`str.strip()` / `str.isspace()`) on `str` patterns: the CPython
`Py_UNICODE_ISSPACE` table. -/
def isPySpace (c : Char) : Bool :=
  let n := c.toNat
  (0x09 ≤ n && n ≤ 0x0D) || (0x1C ≤ n && n ≤ 0x1F) || (n == 0x20) ||
  (n == 0x85) || (n == 0xA0) || (n == 0x1680) ||
  (0x2000 ≤ n && n ≤ 0x200A) || (n == 0x2028) || (n == 0x2029) ||
  (n == 0x202F) || (n == 0x205F) || (n == 0x3000)

/-- Characters kept by `re.sub(r"[^ऀ-ॿ\s।,.!?\-]", "", text)`:
the complement of the deleted class. -/
def keepChar (c : Char) : Bool :=
  (0x900 ≤ c.toNat && c.toNat ≤ 0x97F) || isPySpace c ||
  (c == '।') || (c == ',') || (c == '.') || (c == '!') || (c == '?') || (c == '-')

/-- Characters matched by `re.sub(r"[0-9०-९]", "", text)`: ASCII digits and
Devanagari digits U+0966–U+096F. -/
def isDigitChar (c : Char) : Bool :=
  (0x30 ≤ c.toNat && c.toNat ≤ 0x39) || (0x966 ≤ c.toNat && c.toNat ≤ 0x96F)

/-- `re.sub(r"[^ऀ-ॿ\s।,.!?\-]", "", text)` (line 109). -/
def step1 (l : List Char) : List Char := l.filter keepChar

/-- `re.sub(r"[0-9०-९]", "", text)` (line 111). -/
def step2 (l : List Char) : List Char := l.filter (fun c => !(isDigitChar c))

/-- `re.sub(r"।", ".", text)` (line 113). -/
def step3 (l : List Char) : List Char := l.map (fun c => if c = '।' then '.' else c)

/-- `re.sub(r"\s+", " ", text)`: every maximal run of `\s` characters is
replaced by a single space.  The boolean state records whether the previous
character belonged to a whitespace run already replaced. -/
def collapseAux : Bool → List Char → List Char
  | _, [] => []
  | prevWs, c :: rest =>
    if isPySpace c then
      if prevWs then collapseAux true rest
      else ' ' :: collapseAux true rest
    else c :: collapseAux false rest

/-- `re.sub(r"\s+", " ", text)` (line 114, first half). -/
def collapseWS (l : List Char) : List Char := collapseAux false l

/-- Python `str.strip()`: drop leading and trailing whitespace. -/
def stripWS (l : List Char) : List Char :=
  ((l.dropWhile isPySpace).reverse.dropWhile isPySpace).reverse

/-- Two adjacent output characters are never both whitespace. -/
def wsOk (a b : Char) : Prop := ¬(isPySpace a = true ∧ isPySpace b = true)

/-- `preprocess_hindi_text` (lines 98–115) on character lists. -/
def preprocessList (l : List Char) : List Char :=
  stripWS (collapseWS (step3 (step2 (step1 l))))

/-- `preprocess_hindi_text` (lines 98–115). -/
def preprocess_hindi_text (s : String) : String := String.mk (preprocessList s.toList)

/-- Truthiness test `limit and value >= limit` used by `prepare_dataset`
(`none` models Python `None`; `some 0` is falsy exactly like Python `0`). -/
def pyLimitHit (limit : Option Nat) (value : Nat) : Bool :=
  match limit with
  | none => false
  | some m => (decide (m ≠ 0)) && (decide (value ≥ m))

/-- Python `bool(line.strip())`: the line is non-blank after stripping
whitespace. -/
def nonBlank (line : String) : Bool := !(stripWS line.toList).isEmpty

/-- The reading loop of `prepare_dataset` (lines 86–94): `i` is the
`enumerate` counter, `acc` the `lines` accumulator. -/
def prepare_loop (sample_size max_lines : Option Nat) :
    Nat → List String → List String → List String
  | _, acc, [] => acc
  | i, acc, line :: rest =>
    if pyLimitHit max_lines i then acc
    else if nonBlank line then
      let acc' := acc ++ [line]
      if pyLimitHit sample_size acc'.length then acc'
      else prepare_loop sample_size max_lines (i + 1) acc' rest
    else prepare_loop sample_size max_lines (i + 1) acc rest

/-- `prepare_dataset` (lines 71–96); the file is given as its list of lines
(each line as the iterator yields it, trailing newline included). -/
def prepare_dataset (fileLines : List String)
    (sample_size max_lines : Option Nat) : List String :=
  prepare_loop sample_size max_lines 0 [] fileLines

/-- Bytes on disk / on the wire. -/
abbrev Bytes := List Nat

/-- An HTTP response as `download_dataset` consumes it: the body chunks
yielded by `iter_content(chunk_size=8192)`, the `content-length` header,
and an optional transport error raised while iterating the body (after all
listed chunks were yielded). -/
structure Resp where
  chunks : List Bytes
  contentLength : Option Nat
  streamErr : Option String
  deriving DecidableEq

/-- Result of `requests.get`: a response, or a `RequestException` raised at
request time (this also covers `raise_for_status`). -/
inductive NetResult where
  | ok : Resp → NetResult
  | err : String → NetResult
  deriving DecidableEq

/-- Observable outcome of one `download_dataset` call: final file state,
the issued request (`none` = no network call; `some h` = one GET whose
`Range` header start is `h`, `h = none` meaning no `Range` header), and the
propagated exception if any. -/
structure DLResult where
  file : Option Bytes
  request : Option (Option Nat)
  error : Option String
  deriving DecidableEq

/-- The body-writing loop of `download_dataset` (lines 53–63): returns the
file content and whether the iterator was exhausted (no `break` taken). -/
def writeLoop (max_size_bytes : Nat) : Bytes → List Bytes → Bytes × Bool
  | content, [] => (content, true)
  | content, data :: rest =>
    if data = [] then (content, false)
    else
      let content' := content ++ data
      if content'.length ≥ max_size_bytes then (content', false)
      else writeLoop max_size_bytes content' rest

/-- The bytes already on disk: `current_size = filepath.stat().st_size if
filepath.exists() else 0` (line 29), as the content they measure. -/
def fileContent (origFile : Option Bytes) : Bytes :=
  match origFile with
  | some c => c
  | none => []

/-- `headers = {'Range': f'bytes={current_size}-'} if current_size > 0 else {}`
(line 32): the `Range` start offset, `none` when no header is sent. -/
def dlHeaders (origFile : Option Bytes) : Option Nat :=
  if (fileContent origFile).length > 0 then some (fileContent origFile).length
  else none

/-- Lines 28–69 of `download_dataset`: compute `current_size`, build the
`Range` header, issue the GET, stream chunks into the file.  `origFile` is
the destination's state before the call (used when the request itself
fails, in which case the file is not even opened).  A mid-body transport
error is only raised when the chunk loop exhausts the iterator (a `break`
on the size cap or an empty chunk leaves the remaining body unread). -/
def dl_go (get : Option Nat → NetResult) (origFile : Option Bytes)
    (max_size_bytes : Nat) : DLResult :=
  match get (dlHeaders origFile) with
  | NetResult.err e =>
    { file := origFile, request := some (dlHeaders origFile), error := some e }
  | NetResult.ok r =>
    match r.streamErr with
    | some e =>
      if (writeLoop max_size_bytes (fileContent origFile) r.chunks).2 then
        { file := some (writeLoop max_size_bytes (fileContent origFile) r.chunks).1,
          request := some (dlHeaders origFile), error := some e }
      else
        { file := some (writeLoop max_size_bytes (fileContent origFile) r.chunks).1,
          request := some (dlHeaders origFile), error := none }
    | none =>
      { file := some (writeLoop max_size_bytes (fileContent origFile) r.chunks).1,
        request := some (dlHeaders origFile), error := none }

/-- `download_dataset` (lines 10–69); `max_size_bytes = max_size_gb * 1024 *
1024 * 1024` (line 19). -/
def download_dataset (get : Option Nat → NetResult) (file : Option Bytes)
    (max_size_gb : Nat) : DLResult :=
  match file with
  | some content =>
    if content.length ≥ max_size_gb * 1024 * 1024 * 1024 then
      { file := some content, request := none, error := none }
    else dl_go get file (max_size_gb * 1024 * 1024 * 1024)
  | none => dl_go get none (max_size_gb * 1024 * 1024 * 1024)

/-- Outcome of step 1 of `main` (lines 197–208). -/
inductive MainOutcome where
  | skippedSufficient
  | aborted
  | continuedWithFile
  | proceeded
  deriving DecidableEq

/-- Step 1 of `main` (lines 197–208): download unless a ≥ 2 GB file exists;
on a transport error, return (abort) when no file exists on disk, else
continue the pipeline with the partial file. -/
def main_step1 (get : Option Nat → NetResult) (file : Option Bytes) :
    MainOutcome × Option Bytes :=
  if (match file with
      | some c => decide (c.length ≥ 2 * 1024 * 1024 * 1024)
      | none => false) then
    (MainOutcome.skippedSufficient, file)
  else
    let r := download_dataset get file 2
    match r.error with
    | some _ =>
      match r.file with
      | none => (MainOutcome.aborted, none)
      | some c => (MainOutcome.continuedWithFile, some c)
    | none => (MainOutcome.proceeded, r.file)

/-- `calculate_compression_ratio` (lines 117–133); `encode` is the external
tokenizer's `encode(line).tokens`.  Python's unguarded `total_chars /
total_tokens` raises `ZeroDivisionError` when `total_tokens == 0`; the
embedding returns `none` on exactly that path. -/
def calculate_compression_ratio (encode : String → List String)
    (corpus : List String) : Option ℚ :=
  let total_chars := (corpus.map (fun line => line.length)).sum
  let total_tokens := (corpus.map (fun line => (encode line).length)).sum
  if total_tokens = 0 then none
  else some ((total_chars : ℚ) / (total_tokens : ℚ))

/-- Transport used in the C1 counterexample: a successful response whose
single body chunk has the full `iter_content` chunk size 8192. -/
def ceGet : Option Nat → NetResult :=
  fun _ => NetResult.ok { chunks := [List.replicate 8192 1],
                          contentLength := none, streamErr := none }

/-- Transport used for C2: one chunk arrives, then the connection drops
mid-body. -/
def c2Get : Option Nat → NetResult :=
  fun _ => NetResult.ok { chunks := [[1, 2, 3]],
                          contentLength := none,
                          streamErr := some ("ConnectionError") }

/-- A transport that always fails at request time. -/
def failGet : Option Nat → NetResult := fun _ => NetResult.err ("ConnectionError")

/-- A small successful transport used as a concrete resume witness. -/
def wGet : Option Nat → NetResult :=
  fun _ => NetResult.ok { chunks := [[4, 5]], contentLength := none, streamErr := none }

/-! ## Generic list helpers -/

theorem mem_of_mem_dropWhile {α} {p : α → Bool} {l : List α} {c : α}
    (h : c ∈ l.dropWhile p) : c ∈ l := by
  induction l with
  | nil => simp at h
  | cons a t ih =>
    rw [List.dropWhile_cons] at h
    by_cases hp : p a
    · rw [if_pos hp] at h
      exact List.mem_cons_of_mem a (ih h)
    · rwa [if_neg hp] at h

theorem head?_dropWhile_false {α} {p : α → Bool} {l : List α} {c : α}
    (h : (l.dropWhile p).head? = some c) : p c = false := by
  induction l with
  | nil => simp at h
  | cons a t ih =>
    rw [List.dropWhile_cons] at h
    by_cases hp : p a
    · rw [if_pos hp] at h
      exact ih h
    · rw [if_neg hp] at h
      simp only [List.head?_cons, Option.some.injEq] at h
      subst h
      exact Bool.eq_false_iff.mpr hp

theorem getLast?_dropWhile_eq {α} {p : α → Bool} {l : List α} {c : α}
    (h : (l.dropWhile p).getLast? = some c) : l.getLast? = some c := by
  induction l with
  | nil => simp at h
  | cons a t ih =>
    rw [List.dropWhile_cons] at h
    by_cases hp : p a
    · rw [if_pos hp] at h
      have ht := ih h
      cases t with
      | nil => simp at ht
      | cons b t' => rwa [List.getLast?_cons_cons]
    · rwa [if_neg hp] at h

theorem dropWhile_eq_self_of_head {α} {p : α → Bool} {l : List α}
    (h : ∀ c, l.head? = some c → p c = false) : l.dropWhile p = l := by
  cases l with
  | nil => rfl
  | cons a t =>
    rw [List.dropWhile_cons, if_neg]
    simp [h a rfl]

theorem chain'_dropWhile {α} {R : α → α → Prop} {p : α → Bool} {l : List α}
    (h : List.Chain' R l) : List.Chain' R (l.dropWhile p) := by
  induction l with
  | nil => simp
  | cons a t ih =>
    rw [List.dropWhile_cons]
    by_cases hp : p a
    · rw [if_pos hp]
      exact ih ((List.chain'_cons'.mp h).2)
    · rwa [if_neg hp]

theorem chain'_reverse_of_symm {α} {R : α → α → Prop}
    (hsymm : ∀ a b, R a b → R b a) {l : List α}
    (h : List.Chain' R l) : List.Chain' R l.reverse := by
  rw [List.chain'_reverse]
  exact h.imp (fun a b hab => hsymm a b hab)

/-! ## `stripWS` lemmas -/

theorem stripWS_head_false {l : List Char} {c : Char}
    (h : (stripWS l).head? = some c) : isPySpace c = false := by
  unfold stripWS at h
  rw [List.head?_reverse] at h
  have h2 := getLast?_dropWhile_eq h
  rw [List.getLast?_reverse] at h2
  exact head?_dropWhile_false h2

theorem stripWS_getLast_false {l : List Char} {c : Char}
    (h : (stripWS l).getLast? = some c) : isPySpace c = false := by
  unfold stripWS at h
  rw [List.getLast?_reverse] at h
  exact head?_dropWhile_false h

theorem mem_stripWS {l : List Char} {c : Char} (h : c ∈ stripWS l) : c ∈ l := by
  unfold stripWS at h
  rw [List.mem_reverse] at h
  have h2 := mem_of_mem_dropWhile h
  rw [List.mem_reverse] at h2
  exact mem_of_mem_dropWhile h2

theorem stripWS_eq_self {l : List Char}
    (h1 : ∀ c, l.head? = some c → isPySpace c = false)
    (h2 : ∀ c, l.getLast? = some c → isPySpace c = false) : stripWS l = l := by
  unfold stripWS
  rw [dropWhile_eq_self_of_head h1]
  rw [dropWhile_eq_self_of_head (fun c hc => h2 c (by rwa [List.head?_reverse] at hc))]
  exact List.reverse_reverse l

theorem chain'_stripWS {R : Char → Char → Prop}
    (hsymm : ∀ a b, R a b → R b a) {l : List Char}
    (h : List.Chain' R l) : List.Chain' R (stripWS l) := by
  unfold stripWS
  exact chain'_reverse_of_symm hsymm
    (chain'_dropWhile (chain'_reverse_of_symm hsymm (chain'_dropWhile h)))

/-! ## `collapseAux` lemmas -/

theorem mem_collapseAux {c : Char} :
    ∀ (b : Bool) (l : List Char), c ∈ collapseAux b l →
      c = ' ' ∨ (c ∈ l ∧ isPySpace c = false) := by
  intro b l
  induction l generalizing b with
  | nil => intro h; simp [collapseAux] at h
  | cons a t ih =>
    intro h
    by_cases ha : isPySpace a
    · cases b with
      | true =>
        simp only [collapseAux, ha, if_true, if_pos] at h
        rcases ih true h with h1 | ⟨h1, h2⟩
        · exact Or.inl h1
        · exact Or.inr ⟨List.mem_cons_of_mem a h1, h2⟩
      | false =>
        simp only [collapseAux, ha, if_true] at h
        rw [if_neg (by simp)] at h
        rcases List.mem_cons.mp h with h1 | h1
        · exact Or.inl h1
        · rcases ih true h1 with h2 | ⟨h2, h3⟩
          · exact Or.inl h2
          · exact Or.inr ⟨List.mem_cons_of_mem a h2, h3⟩
    · simp only [collapseAux, ha, if_false] at h
      rw [if_neg (by simp [ha])] at h
      rcases List.mem_cons.mp h with h1 | h1
      · rw [h1]
        exact Or.inr ⟨List.mem_cons_self a t, Bool.eq_false_iff.mpr ha⟩
      · rcases ih false h1 with h2 | ⟨h2, h3⟩
        · exact Or.inl h2
        · exact Or.inr ⟨List.mem_cons_of_mem a h2, h3⟩

theorem head?_collapseAux_true {c : Char} :
    ∀ l : List Char, (collapseAux true l).head? = some c → isPySpace c = false := by
  intro l
  induction l with
  | nil => intro h; simp [collapseAux] at h
  | cons a t ih =>
    intro h
    by_cases ha : isPySpace a
    · simp only [collapseAux, ha, if_true, if_pos] at h
      exact ih h
    · rw [collapseAux, if_neg (by simp [ha])] at h
      simp only [List.head?_cons, Option.some.injEq] at h
      subst h
      exact Bool.eq_false_iff.mpr ha

theorem chain'_collapseAux :
    ∀ (b : Bool) (l : List Char), List.Chain' wsOk (collapseAux b l) := by
  intro b l
  induction l generalizing b with
  | nil => simp [collapseAux]
  | cons a t ih =>
    by_cases ha : isPySpace a
    · cases b with
      | true =>
        simp only [collapseAux, ha, if_true, if_pos]
        exact ih true
      | false =>
        simp only [collapseAux, ha, if_true]
        rw [if_neg (by simp)]
        refine List.chain'_cons'.mpr ⟨?_, ih true⟩
        intro y hy
        intro hcon
        have hns := head?_collapseAux_true t (Option.mem_def.mp hy)
        rw [hns] at hcon
        exact absurd hcon.2 (by simp)
    · simp only [collapseAux, ha, if_false]
      rw [if_neg (by simp [ha])]
      refine List.chain'_cons'.mpr ⟨?_, ih false⟩
      intro y _ hcon
      rw [Bool.eq_false_iff.mpr ha] at hcon
      exact absurd hcon.1 (by simp)

theorem collapseAux_fixed {l : List Char}
    (hsp : ∀ c ∈ l, isPySpace c = true → c = ' ')
    (hch : List.Chain' wsOk l) :
    collapseAux false l = l ∧
      ((∀ c, l.head? = some c → isPySpace c = false) → collapseAux true l = l) := by
  induction l with
  | nil => exact ⟨rfl, fun _ => rfl⟩
  | cons a t ih =>
    obtain ⟨hR, hct⟩ := List.chain'_cons'.mp hch
    have hspt : ∀ c ∈ t, isPySpace c = true → c = ' ' :=
      fun c hc => hsp c (List.mem_cons_of_mem a hc)
    obtain ⟨ihf, iht⟩ := ih hspt hct
    constructor
    · by_cases ha : isPySpace a
      · have ha' : a = ' ' := hsp a (List.mem_cons_self a t) ha
        have hht : ∀ c, t.head? = some c → isPySpace c = false := by
          intro c hc
          by_contra hcc
          exact hR c (Option.mem_def.mpr hc)
            ⟨ha, Bool.not_eq_false (isPySpace c) |>.mp hcc⟩
        rw [collapseAux, if_pos ha, if_neg (by simp), iht hht, ha']
      · rw [collapseAux, if_neg ha, ihf]
    · intro hh
      have ha : isPySpace a = false := hh a rfl
      rw [collapseAux, if_neg (by simp [ha]), ihf]

/-! ## Facts about the cleaned character stream -/

theorem charOK_of_mem_clean {l : List Char} {c : Char}
    (h : c ∈ step3 (step2 (step1 l))) :
    ((0x900 ≤ c.toNat ∧ c.toNat ≤ 0x97F) ∨ isPySpace c = true ∨
      c = ',' ∨ c = '.' ∨ c = '!' ∨ c = '?' ∨ c = '-')
    ∧ isDigitChar c = false ∧ c ≠ '।' := by
  unfold step3 at h
  rw [List.mem_map] at h
  obtain ⟨a, ha, hc⟩ := h
  unfold step2 at ha
  rw [List.mem_filter] at ha
  obtain ⟨ha1, hdig⟩ := ha
  unfold step1 at ha1
  rw [List.mem_filter] at ha1
  obtain ⟨-, hkeep⟩ := ha1
  have hdig' : isDigitChar a = false := by
    simpa using hdig
  by_cases hda : a = '।'
  · rw [if_pos hda] at hc
    rw [← hc]
    refine ⟨Or.inr (Or.inr (Or.inr (Or.inl rfl))), by decide, by decide⟩
  · rw [if_neg hda] at hc
    rw [← hc]
    simp only [keepChar, Bool.or_eq_true, Bool.and_eq_true, decide_eq_true_eq,
      beq_iff_eq] at hkeep
    rcases hkeep with ((((((h1 | h2) | h3) | h4) | h5) | h6) | h7) | h8
    · exact ⟨Or.inl h1, hdig', hda⟩
    · exact ⟨Or.inr (Or.inl h2), hdig', hda⟩
    · exact absurd h3 hda
    · exact ⟨Or.inr (Or.inr (Or.inl h4)), hdig', hda⟩
    · exact ⟨Or.inr (Or.inr (Or.inr (Or.inl h5))), hdig', hda⟩
    · exact ⟨Or.inr (Or.inr (Or.inr (Or.inr (Or.inl h6)))), hdig', hda⟩
    · exact ⟨Or.inr (Or.inr (Or.inr (Or.inr (Or.inr (Or.inl h7))))), hdig', hda⟩
    · exact ⟨Or.inr (Or.inr (Or.inr (Or.inr (Or.inr (Or.inr h8))))), hdig', hda⟩

theorem mem_preprocessList {l : List Char} {c : Char} (h : c ∈ preprocessList l) :
    c = ' ' ∨ (c ∈ step3 (step2 (step1 l)) ∧ isPySpace c = false) := by
  unfold preprocessList at h
  exact mem_collapseAux false _ (mem_stripWS h)

theorem wsOk_symm : ∀ a b : Char, wsOk a b → wsOk b a :=
  fun _ _ h hc => h ⟨hc.2, hc.1⟩

theorem preprocessList_chain (l : List Char) :
    List.Chain' wsOk (preprocessList l) :=
  chain'_stripWS wsOk_symm (chain'_collapseAux false _)

theorem preprocessList_head {l : List Char} {c : Char}
    (h : (preprocessList l).head? = some c) : isPySpace c = false :=
  stripWS_head_false h

theorem preprocessList_getLast {l : List Char} {c : Char}
    (h : (preprocessList l).getLast? = some c) : isPySpace c = false :=
  stripWS_getLast_false h

theorem step3_eq_self {l : List Char} (h : ∀ c ∈ l, c ≠ '।') : step3 l = l := by
  induction l with
  | nil => rfl
  | cons a t ih =>
    have ha := h a (List.mem_cons_self a t)
    have ht := ih (fun c hc => h c (List.mem_cons_of_mem a hc))
    simp only [step3, List.map_cons] at ht ⊢
    rw [if_neg ha, ht]

theorem preprocessList_idem (l : List Char) :
    preprocessList (preprocessList l) = preprocessList l := by
  have h1 : step1 (preprocessList l) = preprocessList l := by
    apply List.filter_eq_self.mpr
    intro c hc
    rcases mem_preprocessList hc with h | ⟨h, -⟩
    · rw [h]; decide
    · obtain ⟨hset, -, hda⟩ := charOK_of_mem_clean h
      simp only [keepChar, Bool.or_eq_true, Bool.and_eq_true, decide_eq_true_eq,
        beq_iff_eq]
      rcases hset with h1 | h2 | h4 | h5 | h6 | h7 | h8
      · exact Or.inl (Or.inl (Or.inl (Or.inl (Or.inl (Or.inl (Or.inl h1))))))
      · exact Or.inl (Or.inl (Or.inl (Or.inl (Or.inl (Or.inl (Or.inr h2))))))
      · exact Or.inl (Or.inl (Or.inl (Or.inl (Or.inr h4))))
      · exact Or.inl (Or.inl (Or.inl (Or.inr h5)))
      · exact Or.inl (Or.inl (Or.inr h6))
      · exact Or.inl (Or.inr h7)
      · exact Or.inr h8
  have h2 : step2 (preprocessList l) = preprocessList l := by
    apply List.filter_eq_self.mpr
    intro c hc
    rcases mem_preprocessList hc with h | ⟨h, -⟩
    · rw [h]; decide
    · obtain ⟨-, hdig, -⟩ := charOK_of_mem_clean h
      simpa using hdig
  have h3 : step3 (preprocessList l) = preprocessList l := by
    apply step3_eq_self
    intro c hc
    rcases mem_preprocessList hc with h | ⟨h, -⟩
    · rw [h]; decide
    · exact (charOK_of_mem_clean h).2.2
  have h4 : collapseWS (preprocessList l) = preprocessList l := by
    have hsp : ∀ c ∈ preprocessList l, isPySpace c = true → c = ' ' := by
      intro c hc hws
      rcases mem_preprocessList hc with h | ⟨-, hns⟩
      · exact h
      · rw [hws] at hns; cases hns
    exact (collapseAux_fixed hsp (preprocessList_chain l)).1
  have h5 : stripWS (preprocessList l) = preprocessList l :=
    stripWS_eq_self (fun c hc => preprocessList_head hc)
      (fun c hc => preprocessList_getLast hc)
  calc preprocessList (preprocessList l)
      = stripWS (collapseWS (step3 (step2 (step1 (preprocessList l))))) := rfl
    _ = stripWS (collapseWS (preprocessList l)) := by rw [h1, h2, h3]
    _ = stripWS (preprocessList l) := by rw [h4]
    _ = preprocessList l := h5

/-! ## Claim theorems for the text normalizer -/

/-- C3: every character in the output of `preprocess_hindi_text` lies in the
permitted set (Hindi block U+0900–U+097F, whitespace, or one of the
punctuation marks comma, period, exclamation, question mark, hyphen), and
moreover no digit and no Hindi full stop glyph appears in the output. -/
theorem preprocess_output_charset (s : String) (c : Char)
    (hc : c ∈ (preprocess_hindi_text s).toList) :
    ((0x900 ≤ c.toNat ∧ c.toNat ≤ 0x97F) ∨ isPySpace c = true ∨
      c = ',' ∨ c = '.' ∨ c = '!' ∨ c = '?' ∨ c = '-')
    ∧ isDigitChar c = false ∧ c ≠ '।' := by
  have hc' : c ∈ preprocessList s.toList := hc
  rcases mem_preprocessList hc' with h | ⟨h, -⟩
  · rw [h]
    exact ⟨Or.inr (Or.inl (by decide)), by decide, by decide⟩
  · exact charOK_of_mem_clean h

/-- C3 witness: a Devanagari letter survives normalization of a concrete
input and satisfies the permitted-set property. -/
theorem preprocess_output_charset_witness :
    ((0x900 ≤ 'क'.toNat ∧ 'क'.toNat ≤ 0x97F) ∨ isPySpace 'क' = true ∨
      'क' = ',' ∨ 'क' = '.' ∨ 'क' = '!' ∨ 'क' = '?' ∨ 'क' = '-')
    ∧ isDigitChar 'क' = false ∧ 'क' ≠ '।' :=
  preprocess_output_charset ("क1") 'क' (by decide)

/-- C4: `preprocess_hindi_text` is idempotent. -/
theorem preprocess_idempotent (s : String) :
    preprocess_hindi_text (preprocess_hindi_text s) = preprocess_hindi_text s := by
  show String.mk (preprocessList (preprocess_hindi_text s).toList)
      = preprocess_hindi_text s
  have he : (preprocess_hindi_text s).toList = preprocessList s.toList := rfl
  rw [he, preprocessList_idem]
  rfl

/-- C7: on the specific sample line, normalization removes the digits
(collapsing the whitespace run they leave behind) and converts the Hindi
full stop into an ASCII period. -/
theorem preprocess_example_line :
    preprocess_hindi_text ("नमस्ते भारत! यह 123 एक परीक्षण वाक्य है।")
      = ("नमस्ते भारत! यह एक परीक्षण वाक्य है.") := by decide

/-- C8: the output of `preprocess_hindi_text` has no leading whitespace, no
trailing whitespace, and no two consecutive whitespace characters. -/
theorem preprocess_whitespace_normal (s : String) :
    (∀ c, (preprocess_hindi_text s).toList.head? = some c → isPySpace c = false)
    ∧ (∀ c, (preprocess_hindi_text s).toList.getLast? = some c → isPySpace c = false)
    ∧ List.Chain' wsOk (preprocess_hindi_text s).toList := by
  have he : (preprocess_hindi_text s).toList = preprocessList s.toList := rfl
  rw [he]
  exact ⟨fun c h => preprocessList_head h, fun c h => preprocessList_getLast h,
    preprocessList_chain _⟩

/-- C8 witness: applied to a concrete two-word input, the first and last
output characters are not whitespace. -/
theorem preprocess_whitespace_normal_witness :
    isPySpace 'क' = false ∧ isPySpace 'ख' = false :=
  ⟨(preprocess_whitespace_normal ("क ख")).1 'क' (by decide),
   (preprocess_whitespace_normal ("क ख")).2.1 'ख' (by decide)⟩

/-! ## `prepare_dataset` lemmas -/

theorem prepare_loop_cons (ss ml : Option Nat) (i : Nat) (acc : List String)
    (line : String) (rest : List String) :
    prepare_loop ss ml i acc (line :: rest) =
      if pyLimitHit ml i then acc
      else if nonBlank line then
        (if pyLimitHit ss (acc ++ [line]).length then acc ++ [line]
         else prepare_loop ss ml (i + 1) (acc ++ [line]) rest)
      else prepare_loop ss ml (i + 1) acc rest := rfl

theorem prepare_loop_congr {ss ss' ml ml' : Option Nat}
    (hss : ∀ v, pyLimitHit ss v = pyLimitHit ss' v)
    (hml : ∀ v, pyLimitHit ml v = pyLimitHit ml' v) :
    ∀ (l : List String) (i : Nat) (acc : List String),
      prepare_loop ss ml i acc l = prepare_loop ss' ml' i acc l := by
  intro l
  induction l with
  | nil => intro i acc; rfl
  | cons line rest ih =>
    intro i acc
    rw [prepare_loop_cons, prepare_loop_cons, hml i, hss (acc ++ [line]).length]
    by_cases h1 : pyLimitHit ml' i = true
    · rw [if_pos h1, if_pos h1]
    · rw [if_neg h1, if_neg h1]
      by_cases h2 : nonBlank line = true
      · rw [if_pos h2, if_pos h2]
        by_cases h3 : pyLimitHit ss' (acc ++ [line]).length = true
        · rw [if_pos h3, if_pos h3]
        · rw [if_neg h3, if_neg h3, ih]
      · rw [if_neg h2, if_neg h2, ih]

theorem prepare_loop_no_limits :
    ∀ (l : List String) (i : Nat) (acc : List String),
      prepare_loop none none i acc l = acc ++ l.filter nonBlank := by
  intro l
  induction l with
  | nil => intro i acc; simp [prepare_loop]
  | cons line rest ih =>
    intro i acc
    rw [prepare_loop_cons]
    have hns : pyLimitHit none i = false := rfl
    have hns2 : pyLimitHit none (acc ++ [line]).length = false := rfl
    rw [hns, hns2]
    by_cases h : nonBlank line = true
    · simp only [Bool.false_eq_true, if_false, h, if_true]
      rw [ih]
      simp [h]
    · simp only [Bool.false_eq_true, if_false, h]
      rw [ih]
      simp [List.filter_cons, h]

theorem prepare_loop_length_le {m : Nat} {ml : Option Nat} :
    ∀ (l : List String) (i : Nat) (acc : List String), acc.length < m →
      (prepare_loop (some m) ml i acc l).length ≤ m := by
  intro l
  induction l with
  | nil => intro i acc hacc; exact Nat.le_of_lt hacc
  | cons line rest ih =>
    intro i acc hacc
    rw [prepare_loop_cons]
    by_cases h1 : pyLimitHit ml i = true
    · rw [if_pos h1]; exact Nat.le_of_lt hacc
    · rw [if_neg h1]
      by_cases h2 : nonBlank line = true
      · rw [if_pos h2]
        have hlen : (acc ++ [line]).length = acc.length + 1 := by simp
        by_cases h3 : pyLimitHit (some m) (acc ++ [line]).length = true
        · rw [if_pos h3]
          rw [hlen]
          omega
        · rw [if_neg h3]
          apply ih
          have h3' : ¬(m ≠ 0 ∧ (acc ++ [line]).length ≥ m) := by
            intro hcon
            apply h3
            simp only [pyLimitHit, Bool.and_eq_true, decide_eq_true_eq]
            exact hcon
          rw [hlen] at h3' ⊢
          omega
      · rw [if_neg h2]
        exact ih (i + 1) acc hacc

theorem prepare_loop_sublist {ss ml : Option Nat} :
    ∀ (l : List String) (i : Nat) (acc : List String),
      ∃ s, prepare_loop ss ml i acc l = acc ++ s ∧ s.Sublist l := by
  intro l
  induction l with
  | nil =>
    intro i acc
    exact ⟨[], by simp [prepare_loop], List.Sublist.refl []⟩
  | cons line rest ih =>
    intro i acc
    rw [prepare_loop_cons]
    by_cases h1 : pyLimitHit ml i = true
    · exact ⟨[], by rw [if_pos h1]; simp, List.nil_sublist _⟩
    · rw [if_neg h1]
      by_cases h2 : nonBlank line = true
      · rw [if_pos h2]
        by_cases h3 : pyLimitHit ss (acc ++ [line]).length = true
        · exact ⟨[line], by rw [if_pos h3],
            List.Sublist.cons₂ line (List.nil_sublist rest)⟩
        · rw [if_neg h3]
          obtain ⟨s, hs, hsub⟩ := ih (i + 1) (acc ++ [line])
          exact ⟨line :: s, by rw [hs]; simp, List.Sublist.cons₂ line hsub⟩
      · rw [if_neg h2]
        obtain ⟨s, hs, hsub⟩ := ih (i + 1) acc
        exact ⟨s, hs, List.Sublist.cons line hsub⟩

theorem prepare_loop_nonBlank {ss ml : Option Nat} :
    ∀ (l : List String) (i : Nat) (acc : List String),
      (∀ x ∈ acc, nonBlank x = true) →
      ∀ x ∈ prepare_loop ss ml i acc l, nonBlank x = true := by
  intro l
  induction l with
  | nil => intro i acc hacc; exact hacc
  | cons line rest ih =>
    intro i acc hacc
    rw [prepare_loop_cons]
    by_cases h1 : pyLimitHit ml i = true
    · rw [if_pos h1]; exact hacc
    · rw [if_neg h1]
      have hacc' : nonBlank line = true →
          ∀ x ∈ acc ++ [line], nonBlank x = true := by
        intro hb x hx
        rcases List.mem_append.mp hx with hx | hx
        · exact hacc x hx
        · rw [List.mem_singleton.mp hx]; exact hb
      by_cases h2 : nonBlank line = true
      · rw [if_pos h2]
        by_cases h3 : pyLimitHit ss (acc ++ [line]).length = true
        · rw [if_pos h3]
          exact hacc' h2
        · rw [if_neg h3]
          exact ih (i + 1) (acc ++ [line]) (hacc' h2)
      · rw [if_neg h2]
        exact ih (i + 1) acc hacc

theorem prepare_loop_take {ss : Option Nat} {k : Nat} (hk : 0 < k) :
    ∀ (l : List String) (i : Nat) (acc : List String),
      prepare_loop ss (some k) i acc l
        = prepare_loop ss (some k) i acc (l.take (k - i)) := by
  intro l
  induction l with
  | nil => intro i acc; simp
  | cons line rest ih =>
    intro i acc
    by_cases hik : i < k
    · have hki : 0 < k - i := Nat.sub_pos_of_lt hik
      have htake : (line :: rest).take (k - i)
          = line :: rest.take (k - i - 1) := by
        cases hkj : k - i with
        | zero => omega
        | succ j => simp [List.take_succ_cons]
      rw [htake]
      have hml : pyLimitHit (some k) i = false := by
        simp only [pyLimitHit, Bool.and_eq_false_iff, decide_eq_false_iff_not]
        right
        omega
      rw [prepare_loop_cons, prepare_loop_cons, hml]
      simp only [Bool.false_eq_true, if_false]
      have hsub : k - (i + 1) = k - i - 1 := by omega
      by_cases h2 : nonBlank line = true
      · rw [if_pos h2, if_pos h2]
        by_cases h3 : pyLimitHit ss (acc ++ [line]).length = true
        · rw [if_pos h3, if_pos h3]
        · rw [if_neg h3, if_neg h3, ih (i + 1) (acc ++ [line]), hsub]
      · rw [if_neg h2, if_neg h2, ih (i + 1) acc, hsub]
    · have hml : pyLimitHit (some k) i = true := by
        simp only [pyLimitHit, Bool.and_eq_true, decide_eq_true_eq]
        omega
      have htake : k - i = 0 := by omega
      rw [htake]
      simp only [List.take_zero]
      rw [prepare_loop_cons, if_pos hml]
      rfl

/-! ## Claim theorems for `prepare_dataset` -/

/-- C5: with positive limits, `prepare_dataset` returns at most
`sample_size` lines, only lines that are non-blank after whitespace
trimming, in source order without splitting or merging (a sublist of the
input), and reads nothing beyond the first `max_lines` lines of the
source. -/
theorem prepare_dataset_bounds (fileLines : List String) (m k : Nat)
    (hm : 0 < m) (hk : 0 < k) :
    (prepare_dataset fileLines (some m) (some k)).length ≤ m
    ∧ (∀ x ∈ prepare_dataset fileLines (some m) (some k), nonBlank x = true)
    ∧ (prepare_dataset fileLines (some m) (some k)).Sublist fileLines
    ∧ prepare_dataset fileLines (some m) (some k)
        = prepare_dataset (fileLines.take k) (some m) (some k) := by
  refine ⟨?_, ?_, ?_, ?_⟩
  · exact prepare_loop_length_le fileLines 0 [] (by simpa using hm)
  · exact prepare_loop_nonBlank fileLines 0 [] (by simp)
  · obtain ⟨s, hs, hsub⟩ := @prepare_loop_sublist (some m) (some k) fileLines 0 []
    unfold prepare_dataset
    rw [hs]
    simpa using hsub
  · unfold prepare_dataset
    have := @prepare_loop_take (some m) k hk fileLines 0 []
    rwa [Nat.sub_zero] at this

/-- C5 witness: a concrete three-line file with `sample_size = 1`,
`max_lines = 2`. -/
theorem prepare_dataset_bounds_witness :
    (prepare_dataset ["नमस\n", " \n", "ब\n"] (some 1) (some 2)).length ≤ 1
    ∧ (∀ x ∈ prepare_dataset ["नमस\n", " \n", "ब\n"] (some 1) (some 2),
        nonBlank x = true)
    ∧ (prepare_dataset ["नमस\n", " \n", "ब\n"] (some 1) (some 2)).Sublist
        ["नमस\n", " \n", "ब\n"]
    ∧ prepare_dataset ["नमस\n", " \n", "ब\n"] (some 1) (some 2)
        = prepare_dataset (["नमस\n", " \n", "ब\n"].take 2) (some 1) (some 2) :=
  prepare_dataset_bounds ["नमस\n", " \n", "ब\n"] 1 2 (by decide) (by decide)

/-- C10: `prepare_dataset` tests its limits for truthiness, so the value 0
behaves exactly like an unset (`None`) limit for both parameters; in
particular with `sample_size = 0` and `max_lines = 0` every non-blank line
of the whole file is returned. -/
theorem prepare_zero_limits_truthiness (fileLines : List String) :
    prepare_dataset fileLines (some 0) (some 0) = fileLines.filter nonBlank
    ∧ (∀ ml, prepare_dataset fileLines (some 0) ml
        = prepare_dataset fileLines none ml)
    ∧ (∀ ss, prepare_dataset fileLines ss (some 0)
        = prepare_dataset fileLines ss none) := by
  have hzero : ∀ v, pyLimitHit (some 0) v = pyLimitHit none v := by
    intro v
    simp [pyLimitHit]
  refine ⟨?_, ?_, ?_⟩
  · unfold prepare_dataset
    rw [prepare_loop_congr hzero hzero fileLines 0 []]
    rw [prepare_loop_no_limits fileLines 0 []]
    simp
  · intro ml
    exact prepare_loop_congr hzero (fun v => rfl) fileLines 0 []
  · intro ss
    exact prepare_loop_congr (fun v => rfl) hzero fileLines 0 []

/-! ## Downloader lemmas -/

theorem writeLoop_cons (msb : Nat) (content data : Bytes) (rest : List Bytes) :
    writeLoop msb content (data :: rest) =
      if data = [] then (content, false)
      else if (content ++ data).length ≥ msb then (content ++ data, false)
      else writeLoop msb (content ++ data) rest := rfl

theorem writeLoop_append (msb : Nat) :
    ∀ (chunks : List Bytes) (content : Bytes),
      ∃ t, (writeLoop msb content chunks).1 = content ++ t := by
  intro chunks
  induction chunks with
  | nil => intro c; exact ⟨[], by simp [writeLoop]⟩
  | cons d rest ih =>
    intro c
    rw [writeLoop_cons]
    by_cases hd : d = []
    · exact ⟨[], by rw [if_pos hd]; simp⟩
    · rw [if_neg hd]
      by_cases hlen : (c ++ d).length ≥ msb
      · exact ⟨d, by rw [if_pos hlen]⟩
      · rw [if_neg hlen]
        obtain ⟨t, ht⟩ := ih (c ++ d)
        exact ⟨d ++ t, by rw [ht, List.append_assoc]⟩

theorem writeLoop_length_lt (msb K : Nat) :
    ∀ (chunks : List Bytes), (∀ ch ∈ chunks, ch.length ≤ K) →
      ∀ content : Bytes, content.length < msb →
        (writeLoop msb content chunks).1.length < msb + K := by
  intro chunks
  induction chunks with
  | nil =>
    intro _ c hc
    simp only [writeLoop]
    omega
  | cons d rest ih =>
    intro hK c hc
    rw [writeLoop_cons]
    have hdK : d.length ≤ K := hK d (List.mem_cons_self d rest)
    by_cases hd : d = []
    · rw [if_pos hd]
      simp only
      omega
    · rw [if_neg hd]
      have hcd : (c ++ d).length < msb + K := by
        rw [List.length_append]
        omega
      by_cases hlen : (c ++ d).length ≥ msb
      · rw [if_pos hlen]
        exact hcd
      · rw [if_neg hlen]
        exact ih (fun ch hch => hK ch (List.mem_cons_of_mem d hch)) (c ++ d)
          (by omega)

theorem dl_go_request (get : Option Nat → NetResult) (origFile : Option Bytes)
    (msb : Nat) :
    (dl_go get origFile msb).request = some (dlHeaders origFile) := by
  cases hget : get (dlHeaders origFile) with
  | err e => simp [dl_go, hget]
  | ok r =>
    cases hse : r.streamErr with
    | none => simp [dl_go, hget, hse]
    | some e =>
      by_cases hres : (writeLoop msb (fileContent origFile) r.chunks).2 = true
      · simp [dl_go, hget, hse, hres]
      · simp [dl_go, hget, hse, hres]

theorem dl_go_file (get : Option Nat → NetResult) (c : Bytes) (msb : Nat) :
    ∃ t, (dl_go get (some c) msb).file = some (c ++ t) := by
  cases hget : get (dlHeaders (some c)) with
  | err e => exact ⟨[], by simp [dl_go, hget, fileContent]⟩
  | ok r =>
    obtain ⟨t, ht⟩ := writeLoop_append msb r.chunks (fileContent (some c))
    cases hse : r.streamErr with
    | none => exact ⟨t, by simp [dl_go, hget, hse, fileContent] at ht ⊢; rw [ht]⟩
    | some e =>
      refine ⟨t, ?_⟩
      simp only [dl_go, hget, hse, fileContent] at ht ⊢
      rw [ht]
      split <;> rfl

theorem dl_go_file_length (get : Option Nat → NetResult) (c : Bytes)
    (msb : Nat) (hc : c.length < msb)
    (hchunks : ∀ r, get (dlHeaders (some c)) = NetResult.ok r →
        ∀ ch ∈ r.chunks, ch.length ≤ 8192) :
    ∀ b, (dl_go get (some c) msb).file = some b → b.length < msb + 8192 := by
  intro b hb
  cases hget : get (dlHeaders (some c)) with
  | err e =>
    simp only [dl_go, hget, Option.some.injEq] at hb
    rw [← hb]
    omega
  | ok r =>
    have hw := writeLoop_length_lt msb 8192 r.chunks (hchunks r hget)
      (fileContent (some c)) hc
    cases hse : r.streamErr with
    | none =>
      simp only [dl_go, hget, hse, Option.some.injEq] at hb
      rw [← hb]
      exact hw
    | some e =>
      by_cases hres : (writeLoop msb (fileContent (some c)) r.chunks).2 = true
      · simp only [dl_go, hget, hse, hres, if_true, Option.some.injEq] at hb
        rw [← hb]
        exact hw
      · simp only [dl_go, hget, hse, hres, Bool.false_eq_true, if_false,
          Option.some.injEq] at hb
        rw [← hb]
        exact hw

theorem download_dataset_not_full (get : Option Nat → NetResult) (c : Bytes)
    (gb : Nat) (h : ¬(c.length ≥ gb * 1024 * 1024 * 1024)) :
    download_dataset get (some c) gb
      = dl_go get (some c) (gb * 1024 * 1024 * 1024) := by
  simp only [download_dataset]
  rw [if_neg h]

/-! ## Claim theorems for the downloader and evaluator -/

/-- C6: when the destination file already holds at least the configured
byte ceiling, `download_dataset` returns immediately: no network request is
issued and the file is unchanged. -/
theorem download_skip_when_full (get : Option Nat → NetResult) (content : Bytes)
    (gb : Nat) (h : content.length ≥ gb * 1024 * 1024 * 1024) :
    download_dataset get (some content) gb
      = { file := some content, request := none, error := none } := by
  simp only [download_dataset]
  rw [if_pos h]

/-- C6 witness: a pre-existing file meeting the ceiling is returned as is,
with no request issued, against a transport that would fail if called. -/
theorem download_skip_when_full_witness :
    download_dataset failGet (some [5]) 0
      = { file := some [5], request := none, error := none } :=
  download_skip_when_full failGet [5] 0 (by decide)

/-- C1 counterexample: a pre-existing file of size `2^30 - 1` (strictly
below the 1 GB ceiling) plus one full 8192-byte chunk ends at size
`2^30 + 8191`, strictly above the ceiling: the final size is NOT always ≤
the ceiling, because the size check runs only after a whole chunk is
written. -/
theorem download_ceiling_overshoot_cex :
    (download_dataset ceGet (some (List.replicate (2 ^ 30 - 1) 0)) 1).file
      = some (List.replicate (2 ^ 30 - 1) 0 ++ List.replicate 8192 1)
    ∧ (List.replicate (2 ^ 30 - 1) (0 : Nat)).length < 1 * 1024 * 1024 * 1024
    ∧ ¬((List.replicate (2 ^ 30 - 1) (0 : Nat) ++ List.replicate 8192 1).length
        ≤ 1 * 1024 * 1024 * 1024) := by
  refine ⟨?_, by rw [List.length_replicate]; norm_num,
    by rw [List.length_append, List.length_replicate, List.length_replicate]; norm_num⟩
  have hnot : ¬((List.replicate (2 ^ 30 - 1) (0 : Nat)).length
      ≥ 1 * 1024 * 1024 * 1024) := by
    rw [List.length_replicate]
    norm_num
  rw [download_dataset_not_full ceGet _ 1 hnot]
  have hget : ceGet (dlHeaders (some (List.replicate (2 ^ 30 - 1) 0)))
      = NetResult.ok { chunks := [List.replicate 8192 1], contentLength := none,
                       streamErr := none } := rfl
  simp only [dl_go, hget]
  rw [writeLoop_cons]
  have hne : ¬(List.replicate 8192 (1 : Nat) = []) := by
    intro hcon
    have hcl := congrArg List.length hcon
    rw [List.length_replicate, List.length_nil] at hcl
    exact absurd hcl (by norm_num)
  rw [if_neg hne]
  rw [if_pos]
  · rfl
  · simp only [fileContent, List.length_append, List.length_replicate]
    norm_num

/-- C1 (amended): for a pre-existing file of size `S < ceiling`, the fetch
issues one GET whose effective start offset is `S` (a `Range: bytes=S-`
header whenever `S > 0`, so on-disk bytes are never re-requested), the
first `S` bytes are unchanged (new data is only appended), and — provided
every body chunk is at most the 8192-byte `iter_content` chunk size — the
final size is below `ceiling + 8192` (it may exceed the ceiling by up to
8191 bytes, but never by a full chunk or more). -/
theorem download_resume_amended (get : Option Nat → NetResult) (content : Bytes)
    (gb S : Nat) (hS : content.length = S) (hlt : S < gb * 1024 * 1024 * 1024)
    (hchunks : ∀ r, get (dlHeaders (some content)) = NetResult.ok r →
        ∀ ch ∈ r.chunks, ch.length ≤ 8192) :
    (download_dataset get (some content) gb).request
        = some (if 0 < S then some S else none)
    ∧ (∃ t, (download_dataset get (some content) gb).file = some (content ++ t))
    ∧ (∀ b, (download_dataset get (some content) gb).file = some b →
        b.length < gb * 1024 * 1024 * 1024 + 8192) := by
  subst hS
  have hnot : ¬(content.length ≥ gb * 1024 * 1024 * 1024) := by omega
  rw [download_dataset_not_full get content gb hnot]
  refine ⟨?_, dl_go_file get content _,
    dl_go_file_length get content _ hlt hchunks⟩
  rw [dl_go_request]
  simp [dlHeaders, fileContent]

/-- C1 witness: resuming a one-byte file against a small well-behaved
transport. -/
theorem download_resume_amended_witness :
    (download_dataset wGet (some [7]) 1).request
        = some (if 0 < 1 then some 1 else none)
    ∧ (∃ t, (download_dataset wGet (some [7]) 1).file = some ([7] ++ t))
    ∧ (∀ b, (download_dataset wGet (some [7]) 1).file = some b →
        b.length < 1 * 1024 * 1024 * 1024 + 8192) :=
  download_resume_amended wGet [7] 1 1 rfl (by norm_num)
    (fun r hr => by
      simp only [wGet] at hr
      injection hr with h
      subst h
      decide)

/-- C2 counterexample: a transport error raised mid-body after one chunk
does NOT abort the run — `main` catches the propagated error and, because a
partial file now exists on disk, continues the pipeline with it. -/
theorem transport_error_continues_cex :
    main_step1 c2Get none = (MainOutcome.continuedWithFile, some [1, 2, 3])
    ∧ (download_dataset c2Get none 2).error = some ("ConnectionError") := by
  decide

/-- C2 (amended): a transport error in `download_dataset` is propagated to
`main` and never deletes the partial file (the previous content stays as a
prefix); `main` aborts the run only when no destination file exists after
the failure, and otherwise continues the pipeline with the partial file. -/
theorem transport_error_keeps_partial (get : Option Nat → NetResult)
    (file : Option Bytes) (e : String)
    (herr : (download_dataset get file 2).error = some e) :
    (∀ c, file = some c →
        ∃ t, (download_dataset get file 2).file = some (c ++ t))
    ∧ (((download_dataset get file 2).file = none
          ∧ main_step1 get file = (MainOutcome.aborted, none))
       ∨ (∃ c, (download_dataset get file 2).file = some c
          ∧ main_step1 get file = (MainOutcome.continuedWithFile, some c))) := by
  have hnofull : ∀ c, file = some c → ¬(c.length ≥ 2 * 1024 * 1024 * 1024) := by
    intro c hc hfull
    subst hc
    rw [download_skip_when_full get c 2 hfull] at herr
    simp at herr
  constructor
  · intro c hc
    have hnf := hnofull c hc
    subst hc
    rw [download_dataset_not_full get c 2 hnf]
    exact dl_go_file get c _
  · have hmain : main_step1 get file
        = (match (download_dataset get file 2).file with
           | none => (MainOutcome.aborted, none)
           | some b => (MainOutcome.continuedWithFile, some b)) := by
      cases file with
      | none =>
        simp only [main_step1]
        rw [herr]
        rfl
      | some c =>
        simp only [main_step1, decide_eq_false (hnofull c rfl),
          Bool.false_eq_true, if_false]
        rw [herr]
    rw [hmain]
    cases hf : (download_dataset get file 2).file with
    | none => exact Or.inl ⟨rfl, rfl⟩
    | some b => exact Or.inr ⟨b, rfl, rfl⟩

/-- C2 witness: with no pre-existing file and a mid-body failure, the
error propagates, the partial chunk is kept, and `main` continues. -/
theorem transport_error_keeps_partial_witness :
    (∀ c, (none : Option Bytes) = some c →
        ∃ t, (download_dataset c2Get none 2).file = some (c ++ t))
    ∧ (((download_dataset c2Get none 2).file = none
          ∧ main_step1 c2Get none = (MainOutcome.aborted, none))
       ∨ (∃ c, (download_dataset c2Get none 2).file = some c
          ∧ main_step1 c2Get none = (MainOutcome.continuedWithFile, some c))) :=
  transport_error_keeps_partial c2Get none ("ConnectionError") (by decide)

/-- C9: `calculate_compression_ratio` divides without a guard: whenever the
corpus lines encode to zero tokens in total, the division-by-zero path is
taken (`none`, modelling Python's `ZeroDivisionError`) instead of a ratio
being returned. -/
theorem compression_ratio_zero_tokens (encode : String → List String)
    (corpus : List String)
    (h : (corpus.map (fun line => (encode line).length)).sum = 0) :
    calculate_compression_ratio encode corpus = none := by
  unfold calculate_compression_ratio
  simp [h]

/-- C9 witness: an empty corpus file yields zero lines, hence zero tokens,
hence the error path. -/
theorem compression_ratio_zero_tokens_witness :
    calculate_compression_ratio (fun _ => []) [] = none :=
  compression_ratio_zero_tokens (fun _ => []) [] rfl
